import Mathlib

/-!
Verification development for the Aadhaar Enrolment Intelligence System backend.

The Python backend operates on pandas DataFrames.  We embed a DataFrame as a
list of typed records.  Dates are embedded as epoch-day integers (the value of
a `datetime64` cell), with the `DD-MM-YYYY` ingestion format parsed by an
explicit civil-calendar parser.  Float arithmetic on the data values is exact
(`ℚ`); the two places where the code produces non-finite floats (NaN from
`0/0` or an undefined statistic, infinities from `x/0`) are modelled
explicitly: statistics that can be NaN are `Option ℚ` (with `none` = NaN,
matching the code's NaN-comparison semantics: every comparison with NaN is
false), and float division results are modelled by `FloatQ` which carries
`nan`/`inf`/`ninf` alongside finite rationals.

Standard deviations are square roots of rationals and hence irrational; they
are represented by their squares (the variances), an injective recoding on
the nonnegative reals, and every comparison the code performs against a
standard deviation (`|z| > threshold`, `deviation > rolling_std * threshold`)
is decided exactly by `gtMulSqrt` on the squared data; the bridging theorems
state the comparisons back in `ℝ` with `Real.sqrt`.
-/

/-! ## Calendar arithmetic (civil calendar ↔ epoch days) -/

/-- Leap-year test of the proleptic Gregorian calendar. -/
def isLeapYear (y : ℤ) : Bool :=
  (y % 4 == 0 && y % 100 != 0) || y % 400 == 0

/-- Number of days in a given month of a given year. -/
def daysInMonth (y m : ℤ) : ℤ :=
  if m = 2 then (if isLeapYear y then 29 else 28)
  else if m = 4 ∨ m = 6 ∨ m = 9 ∨ m = 11 then 30
  else 31

/-- Days since 1970-01-01 of a civil date (standard days-from-civil algorithm). -/
def toEpochDay (y m d : ℤ) : ℤ :=
  let y' := if m ≤ 2 then y - 1 else y
  let era := Int.fdiv y' 400
  let yoe := y' - era * 400
  let mp := Int.fmod (m + 9) 12
  let doy := (153 * mp + 2) / 5 + d - 1
  let doe := yoe * 365 + yoe / 4 - yoe / 100 + doy
  era * 146097 + doe - 719468

/-- Civil date (year, month, day) of an epoch-day count (civil-from-days). -/
def civilFromDays (z0 : ℤ) : ℤ × ℤ × ℤ :=
  let z := z0 + 719468
  let era := Int.fdiv z 146097
  let doe := z - era * 146097
  let yoe := (doe - doe / 1460 + doe / 36524 - doe / 146096) / 365
  let y := yoe + era * 400
  let doy := doe - (365 * yoe + yoe / 4 - yoe / 100)
  let mp := (5 * doy + 2) / 153
  let d := doy - (153 * mp + 2) / 5 + 1
  let m := if mp < 10 then mp + 3 else mp - 9
  (if m ≤ 2 then y + 1 else y, m, d)

/-- Year component of an epoch day (`Series.dt.year`). -/
def yearOf (e : ℤ) : ℤ := (civilFromDays e).1

/-- Month component of an epoch day (`Series.dt.month`). -/
def monthOf (e : ℤ) : ℤ := (civilFromDays e).2.1

/-- Day-of-month component of an epoch day (`Series.dt.day`). -/
def dayOfMonth (e : ℤ) : ℤ := (civilFromDays e).2.2

/-- Weekday of an epoch day, Monday = 0 (1970-01-01 was a Thursday). -/
def weekdayMon (e : ℤ) : ℤ := Int.fmod (e + 3) 7

/-- English weekday name (`Series.dt.day_name()`). -/
def dayNameOf (e : ℤ) : String :=
  ([("Monday"), ("Tuesday"), ("Wednesday"), ("Thursday"), ("Friday"),
    ("Saturday"), ("Sunday")]).getD (weekdayMon e).toNat ("")

/-- English month name (`Series.dt.strftime('%B')`). -/
def monthNameOf (e : ℤ) : String :=
  ([("January"), ("February"), ("March"), ("April"), ("May"), ("June"),
    ("July"), ("August"), ("September"), ("October"), ("November"),
    ("December")]).getD (monthOf e - 1).toNat ("")

/-- ISO week number (`Series.dt.isocalendar().week`): the week of the Thursday
belonging to the same Monday-based week as the given day. -/
def isoWeekOf (e : ℤ) : ℤ :=
  let thu := e + (3 - weekdayMon e)
  let y := yearOf thu
  (thu - toEpochDay y 1 1) / 7 + 1

/-- Left-pads the decimal representation of a nonnegative integer to two digits. -/
def padTwo (n : ℤ) : String := if n < 10 then ("0") ++ toString n else toString n

/-- Formats an epoch day as `YYYY-MM-DD` (`Timestamp.strftime('%Y-%m-%d')`). -/
def formatDate (e : ℤ) : String :=
  toString (yearOf e) ++ ("-") ++ padTwo (monthOf e) ++ ("-") ++ padTwo (dayOfMonth e)

/-! ## Date cells and `parse_dates` -/

/-- Content of the `date` column of a raw table: either still text (as loaded
from CSV) or an already parsed `datetime64` value (epoch days). -/
inductive DateCell where
  | text : String → DateCell
  | stamp : ℤ → DateCell
deriving DecidableEq

/-- Parses a `DD-MM-YYYY` string to epoch days; `none` models `NaT` from
`pd.to_datetime(..., format='%d-%m-%Y', errors='coerce')` (which also rejects
impossible civil dates such as 31-02). -/
def tryParseDMY (s : String) : Option ℤ :=
  match s.splitOn ("-") with
  | [ds, ms, ys] =>
    match ds.toNat?, ms.toNat?, ys.toNat? with
    | some d, some m, some y =>
      if ds.length ≤ 2 ∧ ms.length ≤ 2 ∧ ys.length = 4 ∧ 1 ≤ m ∧ m ≤ 12 ∧
          1 ≤ d ∧ (d : ℤ) ≤ daysInMonth (y : ℤ) (m : ℤ)
      then some (toEpochDay (y : ℤ) (m : ℤ) (d : ℤ))
      else none
    | _, _, _ => none
  | _ => none

/-- The effect of `pd.to_datetime(..., format='%d-%m-%Y', errors='coerce')` on
one cell: text is parsed with the strict format, while an already-parsed
`datetime64` value is returned unchanged (pandas ignores `format` then). -/
def parseDateCell : DateCell → Option ℤ
  | .text s => tryParseDMY s
  | .stamp e => some e

/-! ## Row types -/

/-- Schema-conformant raw record: the seven required columns. -/
structure RawRow where
  date : DateCell
  state : String
  district : String
  pincode : ℤ
  age_0_5 : ℤ
  age_5_17 : ℤ
  age_18_greater : ℤ
deriving DecidableEq

/-- Record after `parse_dates`: the date is a parsed `datetime64` value. -/
structure PRow where
  date : ℤ
  state : String
  district : String
  pincode : ℤ
  age_0_5 : ℤ
  age_5_17 : ℤ
  age_18_greater : ℤ
deriving DecidableEq

/-- Record after `add_derived_columns`. -/
structure DRow where
  date : ℤ
  state : String
  district : String
  pincode : ℤ
  age_0_5 : ℤ
  age_5_17 : ℤ
  age_18_greater : ℤ
  total_enrolments : ℤ
  year : ℤ
  month : ℤ
  month_name : String
  day : ℤ
  day_of_week : String
  week_of_year : ℤ
deriving DecidableEq, Inhabited

/-! ## Preprocessor (`preprocessing.py`) -/

/-- Embeds `parse_dates`: parse the date column, dropping rows whose date
fails to parse (`dropna(subset=['date'])`). -/
def parse_dates (df : List RawRow) : List PRow :=
  df.filterMap (fun r => (parseDateCell r.date).map (fun e =>
    { date := e, state := r.state, district := r.district, pincode := r.pincode,
      age_0_5 := r.age_0_5, age_5_17 := r.age_5_17,
      age_18_greater := r.age_18_greater }))

/-- Derivation of one row of `add_derived_columns`: the total-enrolment sum
and the calendar feature columns. -/
def deriveRow (r : PRow) : DRow :=
  { date := r.date, state := r.state, district := r.district,
    pincode := r.pincode, age_0_5 := r.age_0_5, age_5_17 := r.age_5_17,
    age_18_greater := r.age_18_greater,
    total_enrolments := r.age_0_5 + r.age_5_17 + r.age_18_greater,
    year := yearOf r.date, month := monthOf r.date,
    month_name := monthNameOf r.date, day := dayOfMonth r.date,
    day_of_week := dayNameOf r.date, week_of_year := isoWeekOf r.date }

/-- Embeds `add_derived_columns`. -/
def add_derived_columns (df : List PRow) : List DRow := df.map deriveRow

/-- In-place swap of two positions (identity out of bounds, which the sort
never exercises), the primitive all of numpy's index-moving sort code is
built from: `INTP_SWAP` directly, and the insertion-shift and heap-sift
moves as their extensionally identical adjacent/path swap chains. -/
def aswap (l : List DRow) (i j : ℕ) : List DRow :=
  if i < l.length ∧ j < l.length then
    (l.set i (l.getD j default)).set j (l.getD i default)
  else l

/-- Conditional median-of-three swap `if (LT(v[i], v[j])) SWAP(i, j)` of
numpy's quicksort. -/
def medianSwap (l : List DRow) (i j : ℕ) : List DRow :=
  if (l.getD i default).date < (l.getD j default).date then aswap l i j else l

/-- Scan `do ++pi; while (LT(v[*pi], vp))` of the Hoare partition: the first
index right of `i` whose key is not below the pivot (fuelled; the pivot
sentinel parked at `pr - 1` bounds every reachable run). -/
def scanLo (l : List DRow) (vp : ℤ) (i : ℕ) : ℕ → ℕ
  | 0 => i + 1
  | f + 1 => if (l.getD (i + 1) default).date < vp then scanLo l vp (i + 1) f else i + 1

/-- Scan `do --pj; while (LT(vp, v[*pj]))` of the Hoare partition. -/
def scanHi (l : List DRow) (vp : ℤ) (j : ℕ) : ℕ → ℕ
  | 0 => j - 1
  | f + 1 => if vp < (l.getD (j - 1) default).date then scanHi l vp (j - 1) f else j - 1

/-- Hoare partition loop of numpy's quicksort: scan from both ends, swap,
stop when the cursors cross; returns the rearranged list and the final left
cursor `pi`. -/
def partitionLoop (l : List DRow) (vp : ℤ) (pi pj : ℕ) : ℕ → List DRow × ℕ
  | 0 => (l, pi)
  | f + 1 =>
    let pi2 := scanLo l vp pi (l.length + 1)
    let pj2 := scanHi l vp pj (l.length + 1)
    if pj2 ≤ pi2 then (l, pi2)
    else partitionLoop (aswap l pi2 pj2) vp pi2 pj2 f

/-- One partition step of numpy's `aquicksort` on `[pl, pr]`: median-of-three
pivot at `pl + (pr - pl)/2`, pivot parked at `pr - 1`, Hoare partition, pivot
swapped back to the crossing point `pi`; returns the new list and `pi`. -/
def qstep (l : List DRow) (pl pr : ℕ) : List DRow × ℕ :=
  let pm := pl + (pr - pl) / 2
  let l3 := medianSwap (medianSwap (medianSwap l pm pl) pr pm) pm pl
  let vp := (l3.getD pm default).date
  let l4 := aswap l3 pm (pr - 1)
  let res := partitionLoop l4 vp pl (pr - 1) (pr + 2)
  (aswap res.1 res.2 (pr - 1), res.2)

/-- Inner loop of numpy's insertion sort, as the equivalent adjacent-swap
chain: move the element now at `pj` left while `pl < pj` and it compares
below its left neighbour. -/
def insInner (l : List DRow) (pl pj : ℕ) : ℕ → List DRow
  | 0 => l
  | f + 1 =>
    if pl < pj ∧ (l.getD pj default).date < (l.getD (pj - 1) default).date
    then insInner (aswap l (pj - 1) pj) pl (pj - 1) f
    else l

/-- Insertion sort of the segment `[pl, pr]` (numpy's small-partition sort,
`SMALL_QUICKSORT = 15`). -/
def insOuter (l : List DRow) (pl pr pi : ℕ) : ℕ → List DRow
  | 0 => l
  | f + 1 => if pi ≤ pr then insOuter (insInner l pl pi pi) pl pr (pi + 1) f else l

/-- Sift-down of numpy's `aheapsort` (1-based heap positions mapped onto the
subrange starting at `pl`), as the equivalent swap chain: position `i` holds
the sifted element, `j` its current child. -/
def siftDown (l : List DRow) (pl n i j : ℕ) : ℕ → List DRow
  | 0 => l
  | f + 1 =>
    if j ≤ n then
      let j2 := if j < n ∧ (l.getD (pl + j - 1) default).date <
          (l.getD (pl + j) default).date then j + 1 else j
      if (l.getD (pl + i - 1) default).date < (l.getD (pl + j2 - 1) default).date
      then siftDown (aswap l (pl + i - 1) (pl + j2 - 1)) pl n j2 (2 * j2) f
      else l
    else l

/-- Heapify phase of `aheapsort`: sift `k = n/2, …, 1`. -/
def heapBuild (l : List DRow) (pl n k : ℕ) : ℕ → List DRow
  | 0 => l
  | f + 1 =>
    if 1 ≤ k then heapBuild (siftDown l pl n k (2 * k) (n + 2)) pl n (k - 1) f else l

/-- Extraction phase of `aheapsort`: swap the root with the last heap
element, shrink the heap, re-sift the root. -/
def heapExtract (l : List DRow) (pl n : ℕ) : ℕ → List DRow
  | 0 => l
  | f + 1 =>
    if 2 ≤ n then
      heapExtract (siftDown (aswap l (pl + n - 1) pl) pl (n - 1) 1 2 (n + 2)) pl (n - 1) f
    else l

/-- Embeds numpy's `aheapsort` on the subrange of length `num` starting at
`pl` (the introsort depth-limit fallback). -/
def aheapsort (l : List DRow) (pl num : ℕ) : List DRow :=
  heapExtract (heapBuild l pl num (num / 2) (num / 2 + 1)) pl num (num + 1)

/-- Highest set bit position (`npy_get_msb`), 0 for 0 (first argument is
fuel, called with the number itself). -/
def msbGo : ℕ → ℕ → ℕ
  | 0, _ => 0
  | f + 1, n => if n ≤ 1 then 0 else 1 + msbGo f (n / 2)

/-- Driver loop of numpy's `aquicksort` (introsort): partition segments
longer than `SMALL_QUICKSORT = 15`, pushing the larger half together with
the decremented depth budget on an explicit stack and continuing with the
smaller; insertion-sort short segments; fall back to heapsort once the
depth budget is exhausted. Every fuel argument strictly dominates the
corresponding reachable iteration count, so the model computes exactly the
numpy result. -/
def qsLoop (l : List DRow) (pl pr : ℕ) (cdepth : ℤ)
    (stack : List (ℕ × ℕ × ℤ)) : ℕ → List DRow
  | 0 => l
  | f + 1 =>
    if 15 < pr - pl then
      if cdepth < 0 then
        match aheapsort l pl (pr - pl + 1), stack with
        | l2, [] => l2
        | l2, (pl2, pr2, d2) :: st => qsLoop l2 pl2 pr2 d2 st f
      else
        let res := qstep l pl pr
        if res.2 - pl < pr - res.2 then
          qsLoop res.1 pl (res.2 - 1) (cdepth - 1) ((res.2 + 1, pr, cdepth - 1) :: stack) f
        else
          qsLoop res.1 (res.2 + 1) pr (cdepth - 1) ((pl, res.2 - 1, cdepth - 1) :: stack) f
    else
      match insOuter l pl pr (pl + 1) (pr + 1 - pl), stack with
      | l2, [] => l2
      | l2, (pl2, pr2, d2) :: st => qsLoop l2 pl2 pr2 d2 st f

/-- Embeds `df.sort_values('date')` (pandas default `kind='quicksort'`):
numpy's argsort introsort applied to the date keys. This sort is NOT
stable — rows sharing a date may be reordered. -/
def npSortValues (l : List DRow) : List DRow :=
  qsLoop l 0 (l.length - 1) (2 * (msbGo l.length l.length : ℤ)) [] (2 * l.length + 4)

/-- Embeds `preprocess_data`: parse dates, derive columns, sort by date with
numpy's unstable quicksort, reset the index (a no-op on a list). -/
def preprocess_data (df : List RawRow) : List DRow :=
  npSortValues (add_derived_columns (parse_dates df))

/-- View of a preprocessed row as a raw table row again (the derived columns
are recomputed and overwritten by `add_derived_columns` on a second run, so a
re-fed table presents the seven schema columns with the date already parsed). -/
def toRaw (r : DRow) : RawRow :=
  { date := DateCell.stamp r.date, state := r.state, district := r.district,
    pincode := r.pincode, age_0_5 := r.age_0_5, age_5_17 := r.age_5_17,
    age_18_greater := r.age_18_greater }

/-- Forgets the derived columns of a preprocessed row. -/
def stripDerived (r : DRow) : PRow :=
  { date := r.date, state := r.state, district := r.district,
    pincode := r.pincode, age_0_5 := r.age_0_5, age_5_17 := r.age_5_17,
    age_18_greater := r.age_18_greater }

/-! ## Filter layer -/

/-- Embeds `filter_by_date_range`: an omitted bound (`None`) filters nothing
on that side; both bounds inclusive. The two filters are applied in sequence
exactly as in the code. String bounds are passed already parsed. These
functions return new lists; the input list is never mutated (list values are
immutable here, matching the code's `df.copy()` discipline). -/
def filter_by_date_range (df : List DRow) (start_date end_date : Option ℤ) : List DRow :=
  let df1 := match start_date with
    | none => df
    | some sd => df.filter (fun r => decide (sd ≤ r.date))
  match end_date with
  | none => df1
  | some ed => df1.filter (fun r => decide (r.date ≤ ed))

/-- Embeds `filter_by_pincode`: keeps the rows whose pincode is in the given
collection (`Series.isin`, i.e. membership — set semantics). A scalar
argument is wrapped into a one-element list by the code before this point. -/
def filter_by_pincode (df : List DRow) (pincodes : List ℤ) : List DRow :=
  df.filter (fun r => decide (r.pincode ∈ pincodes))

/-- Embeds `filter_by_age_group`: the code copies the frame, validates the
requested group names against the whitelist, discards that result, and
returns the (copied) frame unchanged. -/
def filter_by_age_group (df : List DRow) (age_groups : List String) : List DRow :=
  let valid_groups : List String := [("age_0_5"), ("age_5_17"), ("age_18_greater")]
  if age_groups.isEmpty then df
  else
    let _checked := age_groups.filter (fun ag => valid_groups.contains ag)
    df

/-! ## Configuration (`config.py`) -/

/-- Embeds `ANOMALY_THRESHOLD = 2.5`. -/
def ANOMALY_THRESHOLD : ℚ := 5 / 2

/-- Embeds `ROLLING_WINDOW = 7`. -/
def ROLLING_WINDOW : ℕ := 7

/-- Embeds `REQUIRED_COLUMNS`. -/
def REQUIRED_COLUMNS : List String :=
  [("date"), ("state"), ("district"), ("pincode"),
   ("age_0_5"), ("age_5_17"), ("age_18_greater")]

/-! ## Schema validator (`data_loader.py`) -/

/-- Embeds `validate_columns`: raises (here: `.error`) iff some required
column is absent from the table's columns, else returns `True`. -/
def validate_columns (cols : List String) : Except String Bool :=
  let missing := REQUIRED_COLUMNS.filter (fun c => !(cols.contains c))
  if missing.isEmpty then .ok true
  else .error (("Missing required columns: ") ++ String.intercalate (", ") missing)

/-- Embeds the validation stage of `load_data`: the raw table is released to
the caller only after `validate_columns` succeeds, so a schema error
propagates before any analysis sees data (no partial results). -/
def load_data (cols : List String) (rows : List RawRow) : Except String (List RawRow) :=
  match validate_columns cols with
  | .error e => .error e
  | .ok _ => .ok rows

/-! ## Shared statistics helpers -/

/-- Arithmetic mean of a list of rationals (`Series.mean`). -/
def meanQ (l : List ℚ) : ℚ := l.sum / (l.length : ℚ)

/-- Sample variance with the unbiased `n − 1` divisor: the square of
`Series.std()` (pandas default `ddof=1`). -/
def sampleVar (l : List ℚ) : ℚ :=
  ((l.map (fun v => (v - meanQ l) ^ 2)).sum) / ((l.length : ℚ) - 1)

/-- Sample variance as an optional value: `none` models the NaN that
`Series.std()` yields on fewer than two observations. -/
def sampleVarQ? (l : List ℚ) : Option ℚ :=
  if l.length ≤ 1 then none else some (sampleVar l)

/-- Median with linear interpolation of the two middle values on even length
(`Series.median`). -/
def medianQ (l : List ℚ) : ℚ :=
  let s := List.insertionSort (· ≤ ·) l
  let n := s.length
  if n % 2 = 1 then s.getD (n / 2) 0
  else (s.getD (n / 2 - 1) 0 + s.getD (n / 2) 0) / 2

/-- Per-day aggregate series `df.groupby('date')['total_enrolments'].sum()`:
one `(date, summed total)` pair per distinct date, dates ascending (pandas
groupby sorts its keys). -/
def dailyTotals (df : List DRow) : List (ℤ × ℤ) :=
  let keys := List.insertionSort (· ≤ ·) (df.map (fun r => r.date)).dedup
  keys.map (fun d =>
    (d, ((df.filter (fun r => decide (r.date = d))).map
          (fun r => r.total_enrolments)).sum))

/-- Values of the per-day aggregate series, as rationals. -/
def dailyVals (df : List DRow) : List ℚ :=
  (dailyTotals df).map (fun p => ((p.2 : ℤ) : ℚ))

/-- Decides `t * sqrt v < d` for rationals with `0 < v`, using only rational
arithmetic (by squaring; the sign analysis makes the squaring valid). This is
exactly the comparison the code performs against a standard deviation. -/
def gtMulSqrt (d t v : ℚ) : Bool :=
  if t < 0 then (if 0 ≤ d then true else decide (d * d < t * t * v))
  else decide (0 < d ∧ t * t * v < d * d)

/-- Non-finite-aware float value: a finite rational, `±inf`, or `nan`. -/
inductive FloatQ where
  | q : ℚ → FloatQ
  | inf : FloatQ
  | ninf : FloatQ
  | nan : FloatQ
deriving DecidableEq, Inhabited

/-- IEEE-style division of finite values: `0/0 = nan`, `x/0 = ±inf`. -/
def fdivQ (a b : ℚ) : FloatQ :=
  if b = 0 then (if a = 0 then .nan else if 0 < a then .inf else .ninf)
  else .q (a / b)

/-- Embeds `Series.fillna(0)` on one value: NaN becomes 0, all else kept. -/
def FloatQ.fillna0 : FloatQ → FloatQ
  | .nan => .q 0
  | x => x

/-- Multiplication of a float value by a finite rational. -/
def FloatQ.mulQ : FloatQ → ℚ → FloatQ
  | .q x, c => .q (x * c)
  | .inf, c => if 0 < c then .inf else if c < 0 then .ninf else .nan
  | .ninf, c => if 0 < c then .ninf else if c < 0 then .inf else .nan
  | .nan, _ => .nan

/-! ## Analysis engine (`analysis.py`) -/

/-- Result record of `calculate_summary_statistics`. The code's
`daily_statistics.std` float is the square root of `daily_var` (recorded as
the variance, `none` for the NaN of a single-point series). -/
structure SummaryStats where
  total_enrolments : ℤ
  age_0_5 : ℤ
  age_5_17 : ℤ
  age_18_greater : ℤ
  daily_mean : ℚ
  daily_median : ℚ
  daily_var : Option ℚ
  daily_min : ℤ
  daily_max : ℤ
  unique_pincodes : ℕ
  range_start : String
  range_end : String
  range_days : ℤ
deriving DecidableEq, Inhabited

/-- Embeds `calculate_summary_statistics`. On the empty table the code
raises (`int()` of the NaN daily minimum; `NaT.strftime` for the date range),
modelled as `none`; on a non-empty table every field is defined (the daily
std may be NaN, which `float()` tolerates). -/
def calculate_summary_statistics (df : List DRow) : Option SummaryStats :=
  let daily := dailyTotals df
  let vals := daily.map (fun p => p.2)
  match vals.min?, vals.max?, (df.map (fun r => r.date)).min?,
      (df.map (fun r => r.date)).max? with
  | some mn, some mx, some dmn, some dmx =>
    some { total_enrolments := (df.map (fun r => r.total_enrolments)).sum,
           age_0_5 := (df.map (fun r => r.age_0_5)).sum,
           age_5_17 := (df.map (fun r => r.age_5_17)).sum,
           age_18_greater := (df.map (fun r => r.age_18_greater)).sum,
           daily_mean := meanQ (dailyVals df),
           daily_median := medianQ (dailyVals df),
           daily_var := sampleVarQ? (dailyVals df),
           daily_min := mn, daily_max := mx,
           unique_pincodes := (df.map (fun r => r.pincode)).dedup.length,
           range_start := formatDate dmn, range_end := formatDate dmx,
           range_days := dmx - dmn }
  | _, _, _, _ => none

/-- Result of `analyze_temporal_trends` (the claim-relevant fields: the daily
series and the two-point trend direction; the monthly and day-of-week
aggregations of the dict are further groupbys of the same table). -/
structure TemporalTrends where
  daily_trend : List (ℤ × ℤ)
  trend_direction : String
deriving DecidableEq, Inhabited

/-- Embeds `analyze_temporal_trends`: trend direction is `increasing` iff the
last day's total strictly exceeds the first day's (`iloc[-1] > iloc[0]`,
raising on an empty table, modelled as `none`). -/
def analyze_temporal_trends (df : List DRow) : Option TemporalTrends :=
  let daily := dailyTotals df
  match daily.head?, daily.getLast? with
  | some f, some l =>
    some { daily_trend := daily,
           trend_direction := if f.2 < l.2 then ("increasing") else ("decreasing") }
  | _, _ => none

/-- Per-pincode totals `df.groupby('pincode')['total_enrolments'].sum()`
(one pair per distinct pincode, keys ascending). -/
def pincodeTotals (df : List DRow) : List (ℤ × ℤ) :=
  let keys := List.insertionSort (· ≤ ·) (df.map (fun r => r.pincode)).dedup
  keys.map (fun p =>
    (p, ((df.filter (fun r => decide (r.pincode = p))).map
          (fun r => r.total_enrolments)).sum))

/-- Result of `analyze_geographic_distribution` (claim-relevant fields). -/
structure GeoDist where
  top_10_pincodes : List (ℤ × ℤ)
  pincode_concentration : FloatQ
deriving DecidableEq, Inhabited

/-- Embeds `analyze_geographic_distribution`: per-pincode totals sorted
descending, the top-10 list, and the concentration
`top-10 sum / grand total * 100` as a float (NaN if the grand total is 0,
since the numerator is then also 0). -/
def analyze_geographic_distribution (df : List DRow) : GeoDist :=
  let dist := List.insertionSort (fun a b : ℤ × ℤ => b.2 ≤ a.2) (pincodeTotals df)
  let top10 := ((dist.take 10).map (fun p => p.2)).sum
  let grand := (dist.map (fun p => p.2)).sum
  { top_10_pincodes := dist.take 10,
    pincode_concentration := (fdivQ (top10 : ℚ) (grand : ℚ)).mulQ 100 }

/-! ## Anomaly engine (`anomaly_model.py`) -/

/-- One row of the z-score detector's output. The code's `z_score` float
column is `(value − mean) / sqrt var`; the flag and classification columns
recorded here are the code's comparisons of that float with the threshold,
decided exactly (NaN z-scores — fewer than two days, or zero variance —
make every comparison false, hence `normal` and unflagged). -/
structure ZRow where
  date : ℤ
  value : ℤ
  is_anomaly : Bool
  anomaly_type : String
deriving DecidableEq, Inhabited

/-- Embeds `calculate_zscore_anomalies` on the per-day series: mean and
sample std over the series, `z = (value − mean)/std`, flag `|z| > threshold`,
classify `high` if `z > threshold`, else `low` if `z < −threshold`, else
`normal`. -/
def calculate_zscore_anomalies (df : List DRow) (threshold : ℚ) : List ZRow :=
  let daily := dailyTotals df
  let vals := dailyVals df
  let mu := meanQ vals
  daily.map (fun p =>
    let d : ℚ := ((p.2 : ℤ) : ℚ) - mu
    match sampleVarQ? vals with
    | none => { date := p.1, value := p.2, is_anomaly := false,
                anomaly_type := ("normal") }
    | some v =>
      if v = 0 then
        { date := p.1, value := p.2, is_anomaly := false,
          anomaly_type := ("normal") }
      else
        { date := p.1, value := p.2,
          is_anomaly := gtMulSqrt d threshold v || gtMulSqrt (-d) threshold v,
          anomaly_type :=
            if gtMulSqrt d threshold v then ("high")
            else if gtMulSqrt (-d) threshold v then ("low")
            else ("normal") })

/-- Centered rolling window of width `w` at position `i`
(`rolling(window=w, center=True)`, `min_periods = w`): defined exactly when
the full window `[i − (w−1)/2, i + w/2]` lies inside the series. -/
def windowSlice (vals : List ℚ) (w i : ℕ) : Option (List ℚ) :=
  if (w - 1) / 2 ≤ i ∧ i + w / 2 < vals.length then
    some ((vals.drop (i - (w - 1) / 2)).take w)
  else none

/-- Rolling-anomaly flag: `deviation > rolling_std * threshold`, false when
either side is NaN. -/
def rollingFlag (t : ℚ) (dev rv : Option ℚ) : Bool :=
  match dev, rv with
  | some d, some vr => gtMulSqrt d t vr
  | _, _ => false

/-- Square of the severity column `(deviation / threshold_value).fillna(0)`,
with float semantics: NaN (undefined rolling stats, or `0/0`) becomes 0 by
`fillna`, a nonzero value over a zero threshold would be infinite. -/
def rollingSeveritySq (t : ℚ) (dev rv : Option ℚ) : FloatQ :=
  FloatQ.fillna0 (match dev, rv with
    | some d, some vr => fdivQ (d * d) (t * t * vr)
    | _, _ => .nan)

/-- One row of the rolling-window detector's output; `rolling_var` is the
square of the code's `rolling_std` column (`none` = NaN), `anomaly_severity_sq`
the square of its severity column. -/
structure RRow where
  date : ℤ
  value : ℤ
  rolling_mean : Option ℚ
  rolling_var : Option ℚ
  deviation : Option ℚ
  is_rolling_anomaly : Bool
  anomaly_severity_sq : FloatQ
deriving DecidableEq, Inhabited

/-- Embeds `calculate_rolling_anomalies`: per-day series sorted by date,
centered rolling mean/std, `deviation = |value − rolling_mean|`,
`threshold_value = rolling_std * threshold`, flag
`deviation > threshold_value`, severity `deviation / threshold_value` with
NaN filled by 0. -/
def calculate_rolling_anomalies (df : List DRow) (window : ℕ) (threshold : ℚ) :
    List RRow :=
  let daily := List.insertionSort (fun a b : ℤ × ℤ => a.1 ≤ b.1) (dailyTotals df)
  let vals := daily.map (fun p => ((p.2 : ℤ) : ℚ))
  (List.range daily.length).map (fun i =>
    let p := daily.getD i (0, 0)
    let v : ℚ := ((p.2 : ℤ) : ℚ)
    let rm := (windowSlice vals window i).map meanQ
    let rv := (windowSlice vals window i).bind sampleVarQ?
    let dev := rm.map (fun m => |v - m|)
    { date := p.1, value := p.2, rolling_mean := rm, rolling_var := rv,
      deviation := dev,
      is_rolling_anomaly := rollingFlag threshold dev rv,
      anomaly_severity_sq := rollingSeveritySq threshold dev rv })

/-! ## Witness data -/

/-- Concrete preprocessed row used by witnesses. -/
def row0 : DRow :=
  { date := 0, state := ("WB"), district := ("Birbhum"), pincode := 731101,
    age_0_5 := 1, age_5_17 := 2, age_18_greater := 3, total_enrolments := 6,
    year := 1970, month := 1, month_name := ("January"), day := 1,
    day_of_week := ("Thursday"), week_of_year := 1 }

/-- One-row table used by witnesses. -/
def df0 : List DRow := [row0]

/-- Schema-conformant raw row with a fixed parsed date and a distinguishing
pincode, used for the tied-date counterexample. -/
def rawTie (k : ℤ) : RawRow :=
  { date := DateCell.stamp 0, state := ("WB"), district := ("Birbhum"),
    pincode := k, age_0_5 := 1, age_5_17 := 0, age_18_greater := 0 }

/-- Twenty raw rows sharing one date: long enough that numpy's quicksort
(cutoff 15) partitions the tied block and reorders it. -/
def dfTies : List RawRow := (List.range 20).map (fun k => rawTie (k : ℤ))

/-- Concrete all-zero-count row (schema-conformant: counts are nonnegative). -/
def rowZ : DRow :=
  { date := 0, state := ("WB"), district := ("Birbhum"), pincode := 731102,
    age_0_5 := 0, age_5_17 := 0, age_18_greater := 0, total_enrolments := 0,
    year := 1970, month := 1, month_name := ("January"), day := 1,
    day_of_week := ("Thursday"), week_of_year := 1 }

/-- One-row table whose grand enrolment total is zero. -/
def dfZ : List DRow := [rowZ]

/-! ## C10 — `filter_by_age_group` never filters -/

/-- C10: for every table and every `age_groups` argument,
`filter_by_age_group` returns the table unchanged — it only validates the
requested group names and discards the result. -/
theorem filter_by_age_group_is_identity (df : List DRow) (age_groups : List String) :
    filter_by_age_group df age_groups = df := by
  unfold filter_by_age_group
  split <;> rfl

/-! ## C1 — `calculate_summary_statistics` on the empty table -/

/-- C1 (code evaluated at the failing input): on the empty table
`calculate_summary_statistics` does not return zeroed/null results — it
raises (`int()` of the NaN daily minimum, `NaT.strftime`), modelled as
`none`. -/
theorem summary_statistics_empty_table_raises :
    calculate_summary_statistics ([] : List DRow) = none := rfl

/-! ## C5 — age-band sums add up to the total-enrolments sum -/

/-- C5: over any parsed table, the sum of the three age-band columns equals
the sum of the `total_enrolments` column derived by `add_derived_columns`. -/
theorem age_band_sums_equal_total_sum (df : List PRow) :
    ((add_derived_columns df).map (fun r => r.age_0_5)).sum +
      ((add_derived_columns df).map (fun r => r.age_5_17)).sum +
      ((add_derived_columns df).map (fun r => r.age_18_greater)).sum =
      ((add_derived_columns df).map (fun r => r.total_enrolments)).sum := by
  induction df with
  | nil => rfl
  | cons a t ih =>
    simp only [add_derived_columns, List.map_cons, List.sum_cons, deriveRow] at ih ⊢
    omega

/-! ## C6 — preprocessing is idempotent and deterministic -/

/-- Re-parsing an already preprocessed table drops nothing: every date cell
is an already-parsed stamp, which `pd.to_datetime` returns unchanged. -/
theorem parse_dates_map_toRaw (l : List DRow) :
    parse_dates (l.map toRaw) = l.map stripDerived := by
  induction l with
  | nil => rfl
  | cons a t ih =>
    simp only [List.map_cons, parse_dates, List.filterMap_cons] at ih ⊢
    simpa [parseDateCell, toRaw, stripDerived] using ih

/-- Prefix, selected element and suffix reassemble a list. -/
theorem list_take_getD_drop {α : Type} [Inhabited α] (l : List α) (n : ℕ)
    (h : n < l.length) :
    l.take n ++ l.getD n default :: l.drop (n + 1) = l := by
  rw [List.getD_eq_getElem _ _ h, ← List.drop_eq_getElem_cons h, List.take_append_drop]

/-- Exchanging the two distinguished elements around a middle segment is a
permutation. -/
theorem middle_swap_perm {α : Type} (x y : α) (A B : List α) :
    List.Perm (x :: (A ++ y :: B)) (y :: (A ++ x :: B)) := by
  have h1 : List.Perm (A ++ y :: B) (y :: (A ++ B)) := List.perm_middle
  have h2 : List.Perm (x :: (A ++ B)) (A ++ x :: B) := List.perm_middle.symm
  exact ((h1.cons x).trans (List.Perm.swap y x (A ++ B))).trans (h2.cons y)

/-- Writing each of two in-range positions with the other's element is a
permutation. -/
theorem set_set_swap_perm {α : Type} [Inhabited α] :
    ∀ (l : List α) (i j : ℕ), i < l.length → j < l.length →
      List.Perm ((l.set i (l.getD j default)).set j (l.getD i default)) l := by
  intro l
  induction l with
  | nil =>
    intro i j hi _
    simp at hi
  | cons a t ih =>
    intro i j hi hj
    match i, j with
    | 0, 0 => exact List.Perm.refl (a :: t)
    | 0, j' + 1 =>
      have hj' : j' < t.length := by simpa using hj
      show List.Perm ((t.getD j' default) :: t.set j' a) (a :: t)
      rw [List.set_eq_take_cons_drop a hj']
      conv_rhs => rw [← list_take_getD_drop t j' hj']
      exact middle_swap_perm (t.getD j' default) a (t.take j') (t.drop (j' + 1))
    | i' + 1, 0 =>
      have hi' : i' < t.length := by simpa using hi
      show List.Perm ((t.getD i' default) :: t.set i' a) (a :: t)
      rw [List.set_eq_take_cons_drop a hi']
      conv_rhs => rw [← list_take_getD_drop t i' hi']
      exact middle_swap_perm (t.getD i' default) a (t.take i') (t.drop (i' + 1))
    | i' + 1, j' + 1 =>
      have hi' : i' < t.length := by simpa using hi
      have hj' : j' < t.length := by simpa using hj
      show List.Perm
        (a :: ((t.set i' (t.getD j' default)).set j' (t.getD i' default))) (a :: t)
      exact (ih i' j' hi' hj').cons a

/-- The swap primitive permutes the list. -/
theorem aswap_perm (l : List DRow) (i j : ℕ) : List.Perm (aswap l i j) l := by
  unfold aswap
  by_cases h : i < l.length ∧ j < l.length
  · rw [if_pos h]
    exact set_set_swap_perm l i j h.1 h.2
  · rw [if_neg h]

/-- A conditional median swap permutes the list. -/
theorem medianSwap_perm (l : List DRow) (i j : ℕ) :
    List.Perm (medianSwap l i j) l := by
  unfold medianSwap
  split
  · exact aswap_perm l i j
  · exact List.Perm.refl l

/-- The Hoare partition loop permutes the list. -/
theorem partitionLoop_perm :
    ∀ (fuel : ℕ) (l : List DRow) (vp : ℤ) (pi pj : ℕ),
      List.Perm (partitionLoop l vp pi pj fuel).1 l := by
  intro fuel
  induction fuel with
  | zero =>
    intro l vp pi pj
    exact List.Perm.refl l
  | succ f ih =>
    intro l vp pi pj
    simp only [partitionLoop]
    split
    · exact List.Perm.refl l
    · exact (ih _ _ _ _).trans (aswap_perm _ _ _)

/-- A quicksort partition step permutes the list. -/
theorem qstep_perm (l : List DRow) (pl pr : ℕ) : List.Perm (qstep l pl pr).1 l := by
  unfold qstep
  dsimp only
  refine (aswap_perm _ _ _).trans ?_
  refine (partitionLoop_perm _ _ _ _ _).trans ?_
  refine (aswap_perm _ _ _).trans ?_
  refine (medianSwap_perm _ _ _).trans ?_
  refine (medianSwap_perm _ _ _).trans ?_
  exact medianSwap_perm _ _ _

/-- The insertion-shift chain permutes the list. -/
theorem insInner_perm :
    ∀ (fuel : ℕ) (l : List DRow) (pl pj : ℕ), List.Perm (insInner l pl pj fuel) l := by
  intro fuel
  induction fuel with
  | zero =>
    intro l pl pj
    exact List.Perm.refl l
  | succ f ih =>
    intro l pl pj
    simp only [insInner]
    split
    · exact (ih _ _ _).trans (aswap_perm _ _ _)
    · exact List.Perm.refl l

/-- The insertion sort permutes the list. -/
theorem insOuter_perm :
    ∀ (fuel : ℕ) (l : List DRow) (pl pr pi : ℕ),
      List.Perm (insOuter l pl pr pi fuel) l := by
  intro fuel
  induction fuel with
  | zero =>
    intro l pl pr pi
    exact List.Perm.refl l
  | succ f ih =>
    intro l pl pr pi
    simp only [insOuter]
    split
    · exact (ih _ _ _ _).trans (insInner_perm _ _ _ _)
    · exact List.Perm.refl l

/-- A heap sift permutes the list. -/
theorem siftDown_perm :
    ∀ (fuel : ℕ) (l : List DRow) (pl n i j : ℕ),
      List.Perm (siftDown l pl n i j fuel) l := by
  intro fuel
  induction fuel with
  | zero =>
    intro l pl n i j
    exact List.Perm.refl l
  | succ f ih =>
    intro l pl n i j
    simp only [siftDown]
    split
    · split
      · split
        · exact (ih _ _ _ _ _).trans (aswap_perm _ _ _)
        · exact List.Perm.refl l
      · split
        · exact (ih _ _ _ _ _).trans (aswap_perm _ _ _)
        · exact List.Perm.refl l
    · exact List.Perm.refl l

/-- The heapify phase permutes the list. -/
theorem heapBuild_perm :
    ∀ (fuel : ℕ) (l : List DRow) (pl n k : ℕ),
      List.Perm (heapBuild l pl n k fuel) l := by
  intro fuel
  induction fuel with
  | zero =>
    intro l pl n k
    exact List.Perm.refl l
  | succ f ih =>
    intro l pl n k
    simp only [heapBuild]
    split
    · exact (ih _ _ _ _).trans (siftDown_perm _ _ _ _ _ _)
    · exact List.Perm.refl l

/-- The heap extraction phase permutes the list. -/
theorem heapExtract_perm :
    ∀ (fuel : ℕ) (l : List DRow) (pl n : ℕ),
      List.Perm (heapExtract l pl n fuel) l := by
  intro fuel
  induction fuel with
  | zero =>
    intro l pl n
    exact List.Perm.refl l
  | succ f ih =>
    intro l pl n
    simp only [heapExtract]
    split
    · exact (ih _ _ _).trans ((siftDown_perm _ _ _ _ _ _).trans (aswap_perm _ _ _))
    · exact List.Perm.refl l

/-- Heapsort permutes the list. -/
theorem aheapsort_perm (l : List DRow) (pl num : ℕ) :
    List.Perm (aheapsort l pl num) l := by
  unfold aheapsort
  exact (heapExtract_perm _ _ _ _).trans (heapBuild_perm _ _ _ _ _)

/-- The introsort driver permutes the list. -/
theorem qsLoop_perm :
    ∀ (fuel : ℕ) (l : List DRow) (pl pr : ℕ) (cdepth : ℤ)
      (stack : List (ℕ × ℕ × ℤ)),
      List.Perm (qsLoop l pl pr cdepth stack fuel) l := by
  intro fuel
  induction fuel with
  | zero =>
    intro l pl pr cdepth stack
    exact List.Perm.refl l
  | succ f ih =>
    intro l pl pr cdepth stack
    cases stack with
    | nil =>
      simp only [qsLoop]
      split
      · split
        · exact aheapsort_perm _ _ _
        · split
          · exact (ih _ _ _ _ _).trans (qstep_perm _ _ _)
          · exact (ih _ _ _ _ _).trans (qstep_perm _ _ _)
      · exact insOuter_perm _ _ _ _ _
    | cons top st =>
      obtain ⟨pl2, pr2, d2⟩ := top
      simp only [qsLoop]
      split
      · split
        · exact (ih _ _ _ _ _).trans (aheapsort_perm _ _ _)
        · split
          · exact (ih _ _ _ _ _).trans (qstep_perm _ _ _)
          · exact (ih _ _ _ _ _).trans (qstep_perm _ _ _)
      · exact (ih _ _ _ _ _).trans (insOuter_perm _ _ _ _ _)

/-- The modelled `sort_values('date')` returns a permutation of its input. -/
theorem npSortValues_perm (l : List DRow) : List.Perm (npSortValues l) l :=
  qsLoop_perm _ _ _ _ _ _

set_option maxRecDepth 8192 in
set_option maxHeartbeats 1000000 in
/-- C6 counterexample: on twenty schema-conformant rows sharing one date,
numpy's unstable quicksort permutes the tied block by a non-identity
involution (swapping positions 1↔17, 2↔16, …, 8↔10), and the second run
applies the same involution again, restoring the pre-sort order — so the
second output differs from the first and `preprocess_data` is not
order-idempotent as the claim states. -/
theorem preprocess_data_not_order_idempotent :
    preprocess_data ((preprocess_data dfTies).map toRaw) ≠ preprocess_data dfTies := by
  decide

/-- C6 (amended): re-running `preprocess_data` on its own output drops no
further rows and yields exactly the same rows with the same derived columns
— a permutation of the first output, equal length — but rows sharing a date
may come back in a different relative order (the date sort is numpy's
unstable quicksort); re-running on the same raw input is deterministic. -/
theorem preprocess_data_idempotent_up_to_order (df : List RawRow) :
    List.Perm (preprocess_data ((preprocess_data df).map toRaw))
        (preprocess_data df) ∧
      (preprocess_data ((preprocess_data df).map toRaw)).length =
        (preprocess_data df).length ∧
      preprocess_data df = preprocess_data df := by
  have hmem : ∀ a ∈ preprocess_data df, deriveRow (stripDerived a) = a := by
    intro a ha
    have ha2 : a ∈ add_derived_columns (parse_dates df) :=
      (npSortValues_perm _).mem_iff.mp ha
    obtain ⟨p, _, rfl⟩ := List.mem_map.mp ha2
    rfl
  have e1 : parse_dates ((preprocess_data df).map toRaw) =
      (preprocess_data df).map stripDerived := parse_dates_map_toRaw _
  have e2 : add_derived_columns ((preprocess_data df).map stripDerived) =
      preprocess_data df := by
    show ((preprocess_data df).map stripDerived).map deriveRow = _
    rw [List.map_map]
    have hcongr : List.map (deriveRow ∘ stripDerived) (preprocess_data df) =
        List.map id (preprocess_data df) :=
      List.map_congr_left (fun a ha => hmem a ha)
    rw [hcongr, List.map_id]
  have key : List.Perm (preprocess_data ((preprocess_data df).map toRaw))
      (preprocess_data df) := by
    show List.Perm
      (npSortValues (add_derived_columns (parse_dates ((preprocess_data df).map toRaw))))
      (preprocess_data df)
    rw [e1, e2]
    exact npSortValues_perm _
  exact ⟨key, key.length_eq, rfl⟩

/-! ## C9 — schema validation -/

/-- C9: `validate_columns` errors iff some required column is absent,
succeeds iff all are present, and `load_data` propagates the error before
releasing any data to analysis (no partial results). -/
theorem validate_columns_spec (cols : List String) (rows : List RawRow) :
    ((∃ c ∈ REQUIRED_COLUMNS, c ∉ cols) ↔ ∃ msg, validate_columns cols = .error msg) ∧
      ((∀ c ∈ REQUIRED_COLUMNS, c ∈ cols) ↔ validate_columns cols = .ok true) ∧
      (∀ msg, validate_columns cols = .error msg → load_data cols rows = .error msg) := by
  have hkey : (REQUIRED_COLUMNS.filter (fun c => !(cols.contains c))).isEmpty = true ↔
      ∀ c ∈ REQUIRED_COLUMNS, c ∈ cols := by
    rw [List.isEmpty_iff, List.filter_eq_nil_iff]
    simp
  by_cases hE : (REQUIRED_COLUMNS.filter (fun c => !(cols.contains c))).isEmpty = true
  · have hall : ∀ c ∈ REQUIRED_COLUMNS, c ∈ cols := hkey.mp hE
    have hok : validate_columns cols = .ok true := by
      simp only [validate_columns]
      rw [if_pos hE]
    refine ⟨⟨?_, ?_⟩, ⟨fun _ => hok, fun _ => hall⟩, ?_⟩
    · rintro ⟨c, hc, hnc⟩
      exact absurd (hall c hc) hnc
    · rintro ⟨msg, hmsg⟩
      rw [hok] at hmsg
      cases hmsg
    · intro msg h
      rw [hok] at h
      cases h
  · have herr : validate_columns cols = .error (("Missing required columns: ") ++
        String.intercalate (", ") (REQUIRED_COLUMNS.filter (fun c => !(cols.contains c)))) := by
      simp only [validate_columns]
      rw [if_neg hE]
    have hex : ∃ c ∈ REQUIRED_COLUMNS, c ∉ cols := by
      have hne : REQUIRED_COLUMNS.filter (fun c => !(cols.contains c)) ≠ [] := by
        intro h0
        exact hE (List.isEmpty_iff.mpr h0)
      obtain ⟨c, hcmem⟩ := List.exists_mem_of_ne_nil _ hne
      have hsplit := List.mem_filter.mp hcmem
      refine ⟨c, hsplit.1, ?_⟩
      simpa using hsplit.2
    refine ⟨⟨fun _ => ⟨_, herr⟩, fun _ => hex⟩, ⟨?_, ?_⟩, ?_⟩
    · intro hall
      exact absurd (hkey.mpr hall) hE
    · intro h
      rw [herr] at h
      cases h
    · intro msg h
      simp only [load_data]
      rw [h]

/-! ## C7 — filters are pure and commute -/

/-- C7: `filter_by_pincode` has set semantics (only membership in the pincode
collection matters), the two filters commute (either order gives the same
intersection of rows), and `filter_by_date_range` keeps exactly the rows
inside the inclusive bounds, an omitted bound being unbounded. The embedding
is purely functional, so neither call can modify its input. -/
theorem filters_pure_and_commute (df : List DRow) (s e : Option ℤ) (ps qs : List ℤ)
    (hset : ∀ p : ℤ, p ∈ ps ↔ p ∈ qs) :
    filter_by_date_range (filter_by_pincode df ps) s e =
      filter_by_pincode (filter_by_date_range df s e) qs ∧
      filter_by_pincode df ps = filter_by_pincode df qs ∧
      (∀ r : DRow, r ∈ filter_by_date_range df s e ↔ r ∈ df ∧
        (∀ sd, s = some sd → sd ≤ r.date) ∧ (∀ ed, e = some ed → r.date ≤ ed)) := by
  have hbool3 : ∀ a b c : Bool, (a && (b && c)) = (c && (a && b)) := by decide
  have hbool2 : ∀ a b : Bool, (a && b) = (b && a) := by decide
  have hp : ∀ l : List DRow, filter_by_pincode l ps = filter_by_pincode l qs := by
    intro l
    unfold filter_by_pincode
    apply List.filter_congr
    intro a _
    exact decide_eq_decide.mpr (hset a.pincode)
  have hcomm : filter_by_date_range (filter_by_pincode df ps) s e =
      filter_by_pincode (filter_by_date_range df s e) ps := by
    unfold filter_by_date_range filter_by_pincode
    cases s <;> cases e
    · rfl
    · simp only [List.filter_filter]
      exact List.filter_congr fun a _ => hbool2 _ _
    · simp only [List.filter_filter]
      exact List.filter_congr fun a _ => hbool2 _ _
    · simp only [List.filter_filter]
      exact List.filter_congr fun a _ => hbool3 _ _ _
  refine ⟨hcomm.trans (hp _), hp df, ?_⟩
  intro r
  unfold filter_by_date_range
  cases s <;> cases e <;> (simp [List.mem_filter]; try tauto)

/-- C7 witness: at a concrete table, bound, and duplicated pincode list the
two filter orders agree. -/
theorem filters_pure_and_commute_witness :
    filter_by_date_range (filter_by_pincode df0 [731101, 731101]) (some 0) none =
      filter_by_pincode (filter_by_date_range df0 (some 0) none) [731101] :=
  (filters_pure_and_commute df0 (some 0) none [731101, 731101] [731101]
    (by intro p; simp)).1

/-! ## C8 — trend direction is a two-point comparison -/

/-- Daily aggregate of a non-empty table is non-empty. -/
theorem dailyTotals_ne_nil (df : List DRow) (h : df ≠ []) : dailyTotals df ≠ [] := by
  intro hnil
  simp only [dailyTotals] at hnil
  rw [List.map_eq_nil_iff] at hnil
  have hperm := List.perm_insertionSort (α := ℤ) (· ≤ ·) (df.map (fun r => r.date)).dedup
  rw [hnil] at hperm
  have hd : (df.map (fun r => r.date)).dedup = [] := (List.Perm.eq_nil hperm.symm)
  rw [List.dedup_eq_nil, List.map_eq_nil_iff] at hd
  exact h hd

/-- C8: on a non-empty table, `analyze_temporal_trends` reports
`increasing` iff the last day's total strictly exceeds the first day's, and
`decreasing` otherwise (including equality); the daily series is strictly
date-ascending, so its head and last entries are the chronologically first
and last days. -/
theorem trend_direction_two_point (df : List DRow) (hne : df ≠ []) :
    ∃ f l res, (dailyTotals df).head? = some f ∧ (dailyTotals df).getLast? = some l ∧
      analyze_temporal_trends df = some res ∧
      (res.trend_direction = ("increasing") ↔ f.2 < l.2) ∧
      (res.trend_direction = ("decreasing") ↔ ¬ f.2 < l.2) ∧
      List.Pairwise (fun a b : ℤ × ℤ => a.1 < b.1) (dailyTotals df) := by
  have hd := dailyTotals_ne_nil df hne
  obtain ⟨a, t, hat⟩ := List.exists_cons_of_ne_nil hd
  have hhead : (dailyTotals df).head? = some a := by rw [hat]; rfl
  have hlast : (dailyTotals df).getLast? =
      some ((a :: t).getLast (List.cons_ne_nil a t)) := by
    rw [hat]
    simp [List.getLast?_eq_getLast]
  have hres : analyze_temporal_trends df =
      some { daily_trend := dailyTotals df,
             trend_direction :=
               if a.2 < ((a :: t).getLast (List.cons_ne_nil a t)).2
               then ("increasing") else ("decreasing") } := by
    simp only [analyze_temporal_trends, hhead, hlast]
  refine ⟨a, (a :: t).getLast (List.cons_ne_nil a t), _, hhead, hlast, hres, ?_, ?_, ?_⟩
  · by_cases hlt : a.2 < ((a :: t).getLast (List.cons_ne_nil a t)).2
    · simp only [if_pos hlt]
      exact ⟨fun _ => hlt, fun _ => trivial⟩
    · simp only [if_neg hlt]
      exact ⟨fun hstr => absurd hstr (by decide), fun h => absurd h hlt⟩
  · by_cases hlt : a.2 < ((a :: t).getLast (List.cons_ne_nil a t)).2
    · simp only [if_pos hlt]
      exact ⟨fun hstr => absurd hstr (by decide), fun h => absurd hlt h⟩
    · simp only [if_neg hlt]
      exact ⟨fun _ => hlt, fun _ => trivial⟩
  · simp only [dailyTotals]
    apply List.pairwise_map.mpr
    have hsorted : List.Sorted (· ≤ ·)
        (List.insertionSort (· ≤ ·) (df.map (fun r => r.date)).dedup) :=
      List.sorted_insertionSort _ _
    have hnd : (List.insertionSort (· ≤ ·) (df.map (fun r => r.date)).dedup).Nodup :=
      ((List.perm_insertionSort _ _).nodup_iff).mpr (List.nodup_dedup _)
    exact (List.Pairwise.and hsorted hnd).imp fun h => lt_of_le_of_ne h.1 h.2

/-- C8 witness: the theorem applied to the concrete one-row table. -/
theorem trend_direction_two_point_witness :
    ∃ f l res, (dailyTotals df0).head? = some f ∧ (dailyTotals df0).getLast? = some l ∧
      analyze_temporal_trends df0 = some res ∧
      (res.trend_direction = ("increasing") ↔ f.2 < l.2) ∧
      (res.trend_direction = ("decreasing") ↔ ¬ f.2 < l.2) ∧
      List.Pairwise (fun a b : ℤ × ℤ => a.1 < b.1) (dailyTotals df0) :=
  trend_direction_two_point df0 (by decide)

/-! ## C4 — geographic concentration -/

/-- Splitting a mapped sum along a Boolean predicate. -/
theorem sum_filter_split (l : List DRow) (p : DRow → Bool) (f : DRow → ℤ) :
    ((l.filter p).map f).sum + ((l.filter (fun a => !(p a))).map f).sum =
      (l.map f).sum := by
  induction l with
  | nil => rfl
  | cons a t ih =>
    by_cases h : p a = true
    · simp only [List.filter_cons, h, Bool.not_true, if_pos, List.map_cons,
        List.sum_cons, if_neg, Bool.false_eq_true, not_false_iff, ite_false, ite_true]
      omega
    · have h' : p a = false := by simpa using h
      simp only [List.filter_cons, h', Bool.not_false, List.map_cons,
        List.sum_cons, Bool.false_eq_true, ite_false, ite_true]
      omega

/-- A groupby-sum over a duplicate-free covering key list equals the plain
column sum (the groups partition the rows). -/
theorem sum_over_groups (key : DRow → ℤ) (f : DRow → ℤ) :
    ∀ (K : List ℤ) (l : List DRow), K.Nodup → (∀ a ∈ l, key a ∈ K) →
      (K.map (fun k => ((l.filter (fun a => decide (key a = k))).map f).sum)).sum =
        (l.map f).sum := by
  intro K
  induction K with
  | nil =>
    intro l _ hcov
    cases l with
    | nil => rfl
    | cons a t => exact absurd (hcov a (by simp)) (by simp)
  | cons k K' ih =>
    intro l hnd hcov
    have hk_not : k ∉ K' := (List.nodup_cons.mp hnd).1
    have hnd' : K'.Nodup := (List.nodup_cons.mp hnd).2
    have hsplit := sum_filter_split l (fun a => decide (key a = k)) f
    have hgrp : ∀ k' ∈ K', l.filter (fun a => decide (key a = k')) =
        (l.filter (fun a => !(decide (key a = k)))).filter
          (fun a => decide (key a = k')) := by
      intro k' hk'
      have hnk : ¬ k' = k := fun hkk => hk_not (hkk ▸ hk')
      rw [List.filter_filter]
      apply List.filter_congr
      intro a _
      by_cases hpa : key a = k'
      · simp [hpa, hnk]
      · simp [hpa]
    have hcov2 : ∀ a ∈ l.filter (fun a => !(decide (key a = k))), key a ∈ K' := by
      intro a ha
      have hm := List.mem_filter.mp ha
      have hin := hcov a hm.1
      have hne : ¬ key a = k := by simpa using hm.2
      rcases List.mem_cons.mp hin with h | h
      · exact absurd h hne
      · exact h
    have ihl2 := ih (l.filter (fun a => !(decide (key a = k)))) hnd' hcov2
    simp only [List.map_cons, List.sum_cons]
    have hmapeq : K'.map (fun k' => ((l.filter (fun a => decide (key a = k'))).map f).sum) =
        K'.map (fun k' => (((l.filter (fun a => !(decide (key a = k)))).filter
          (fun a => decide (key a = k'))).map f).sum) := by
      apply List.map_congr_left
      intro k' hk'
      rw [hgrp k' hk']
    rw [hmapeq, ihl2]
    exact hsplit

/-- The grand total of the per-pincode groupby equals the table's
total-enrolments column sum. -/
theorem pincodeTotals_sum (df : List DRow) :
    ((pincodeTotals df).map (fun p => p.2)).sum =
      (df.map (fun r => r.total_enrolments)).sum := by
  simp only [pincodeTotals]
  rw [List.map_map]
  have hnd : (List.insertionSort (· ≤ ·) (df.map (fun r => r.pincode)).dedup).Nodup :=
    ((List.perm_insertionSort _ _).nodup_iff).mpr (List.nodup_dedup _)
  have hcov : ∀ a ∈ df, a.pincode ∈
      List.insertionSort (· ≤ ·) (df.map (fun r => r.pincode)).dedup := by
    intro a ha
    rw [(List.perm_insertionSort _ _).mem_iff]
    exact List.mem_dedup.mpr (List.mem_map_of_mem _ ha)
  exact sum_over_groups (fun r => r.pincode) (fun r => r.total_enrolments) _ df hnd hcov

/-- C4 counterexample: a non-empty schema-conformant table with all age
counts zero (hence zero grand total) makes the concentration `0/0`, i.e.
NaN — not a number in `[0, 100]`. -/
theorem geo_concentration_counterexample :
    dfZ ≠ [] ∧ rowZ.age_0_5 = 0 ∧ rowZ.age_5_17 = 0 ∧ rowZ.age_18_greater = 0 ∧
      rowZ.total_enrolments = rowZ.age_0_5 + rowZ.age_5_17 + rowZ.age_18_greater ∧
      (analyze_geographic_distribution dfZ).pincode_concentration = FloatQ.nan := by
  refine ⟨by decide, rfl, rfl, rfl, rfl, ?_⟩
  simp [analyze_geographic_distribution, pincodeTotals, dfZ, rowZ, fdivQ, FloatQ.mulQ]

/-- C4 (amended): for every non-empty schema-conformant table whose grand
enrolment total is nonzero, the concentration is a finite rational in
`[0, 100]`. -/
theorem geo_concentration_in_range (df : List DRow) (hne : df ≠ [])
    (hage : ∀ r ∈ df, 0 ≤ r.age_0_5 ∧ 0 ≤ r.age_5_17 ∧ 0 ≤ r.age_18_greater)
    (htot : ∀ r ∈ df, r.total_enrolments = r.age_0_5 + r.age_5_17 + r.age_18_greater)
    (hpos : (df.map (fun r => r.total_enrolments)).sum ≠ 0) :
    ∃ x : ℚ, (analyze_geographic_distribution df).pincode_concentration = FloatQ.q x ∧
      0 ≤ x ∧ x ≤ 100 := by
  have hrow : ∀ r ∈ df, 0 ≤ r.total_enrolments := by
    intro r hr
    obtain ⟨h1, h2, h3⟩ := hage r hr
    rw [htot r hr]
    omega
  set dist := List.insertionSort (fun a b : ℤ × ℤ => b.2 ≤ a.2) (pincodeTotals df)
    with hdist
  have hperm : List.Perm dist (pincodeTotals df) := List.perm_insertionSort _ _
  have hgnonneg : ∀ p ∈ dist, 0 ≤ p.2 := by
    intro p hp
    have hp' : p ∈ pincodeTotals df := hperm.mem_iff.mp hp
    simp only [pincodeTotals] at hp'
    obtain ⟨k, _, rfl⟩ := List.mem_map.mp hp'
    apply List.sum_nonneg
    intro x hx
    obtain ⟨r, hr, rfl⟩ := List.mem_map.mp hx
    exact hrow r (List.mem_filter.mp hr).1
  have hgrand : (dist.map (fun p => p.2)).sum =
      (df.map (fun r => r.total_enrolments)).sum := by
    rw [(hperm.map (fun p => p.2)).sum_eq]
    exact pincodeTotals_sum df
  have hgrand_pos : 0 < (dist.map (fun p => p.2)).sum := by
    have hnn : 0 ≤ (dist.map (fun p => p.2)).sum := by
      apply List.sum_nonneg
      intro x hx
      obtain ⟨p, hp, rfl⟩ := List.mem_map.mp hx
      exact hgnonneg p hp
    rcases lt_or_eq_of_le hnn with h | h
    · exact h
    · exact absurd (hgrand ▸ h.symm) hpos
  have htop_nonneg : 0 ≤ ((dist.take 10).map (fun p => p.2)).sum := by
    apply List.sum_nonneg
    intro x hx
    obtain ⟨p, hp, rfl⟩ := List.mem_map.mp hx
    exact hgnonneg p (List.mem_of_mem_take hp)
  have htop_le : ((dist.take 10).map (fun p => p.2)).sum ≤
      (dist.map (fun p => p.2)).sum := by
    have hdropnn : 0 ≤ ((dist.drop 10).map (fun p => p.2)).sum := by
      apply List.sum_nonneg
      intro x hx
      obtain ⟨p, hp, rfl⟩ := List.mem_map.mp hx
      exact hgnonneg p (List.mem_of_mem_drop hp)
    have hsum : ((dist.take 10).map (fun p => p.2)).sum +
        ((dist.drop 10).map (fun p => p.2)).sum = (dist.map (fun p => p.2)).sum := by
      rw [← List.sum_append, ← List.map_append, List.take_append_drop]
    omega
  have hgne : (((dist.map (fun p => p.2)).sum : ℤ) : ℚ) ≠ 0 := by
    exact_mod_cast ne_of_gt hgrand_pos
  have hcast : ∀ l : List (ℤ × ℤ), (l.map (fun p => ((p.2 : ℤ) : ℚ))).sum =
      (((l.map (fun p => p.2)).sum : ℤ) : ℚ) := by
    intro l
    rw [Int.cast_list_sum, List.map_map]
    rfl
  refine ⟨((((dist.take 10).map (fun p => p.2)).sum : ℤ) : ℚ) /
      (((dist.map (fun p => p.2)).sum : ℤ) : ℚ) * 100, ?_, ?_, ?_⟩
  · simp only [analyze_geographic_distribution]
    rw [← hdist]
    rw [hcast (dist.take 10), hcast dist]
    simp only [fdivQ, if_neg hgne, FloatQ.mulQ]
  · apply mul_nonneg
    · apply div_nonneg
      · exact_mod_cast htop_nonneg
      · exact_mod_cast le_of_lt hgrand_pos
    · norm_num
  · have h1 : ((((dist.take 10).map (fun p => p.2)).sum : ℤ) : ℚ) /
        (((dist.map (fun p => p.2)).sum : ℤ) : ℚ) ≤ 1 := by
      rw [div_le_one (by exact_mod_cast hgrand_pos)]
      exact_mod_cast htop_le
    calc ((((dist.take 10).map (fun p => p.2)).sum : ℤ) : ℚ) /
        (((dist.map (fun p => p.2)).sum : ℤ) : ℚ) * 100 ≤ 1 * 100 :=
          mul_le_mul_of_nonneg_right h1 (by norm_num)
    _ = 100 := by norm_num

/-- C4 witness: the amended theorem applied to the concrete one-row table
with positive total. -/
theorem geo_concentration_in_range_witness :
    ∃ x : ℚ, (analyze_geographic_distribution df0).pincode_concentration = FloatQ.q x ∧
      0 ≤ x ∧ x ≤ 100 :=
  geo_concentration_in_range df0 (by decide) (by decide) (by decide) (by decide)

/-! ## Square-root comparison bridge and variance facts -/

/-- Correctness of the rational decision procedure for `t * sqrt v < d`. -/
theorem gtMulSqrt_iff (d t v : ℚ) (hv : 0 < v) :
    gtMulSqrt d t v = true ↔ (t : ℝ) * Real.sqrt ((v : ℚ) : ℝ) < ((d : ℚ) : ℝ) := by
  have hvR : (0 : ℝ) < ((v : ℚ) : ℝ) := by exact_mod_cast hv
  have hs : 0 < Real.sqrt ((v : ℚ) : ℝ) := Real.sqrt_pos.mpr hvR
  have hs2 : Real.sqrt ((v : ℚ) : ℝ) ^ 2 = ((v : ℚ) : ℝ) := Real.sq_sqrt (le_of_lt hvR)
  have hmp : ((t : ℚ) : ℝ) * Real.sqrt ((v : ℚ) : ℝ) *
      (((t : ℚ) : ℝ) * Real.sqrt ((v : ℚ) : ℝ)) = ((t : ℚ) : ℝ) * ((t : ℚ) : ℝ) * ((v : ℚ) : ℝ) := by
    have : Real.sqrt ((v : ℚ) : ℝ) * Real.sqrt ((v : ℚ) : ℝ) = ((v : ℚ) : ℝ) := by
      have := hs2
      nlinarith [hs2]
    nlinarith [this]
  unfold gtMulSqrt
  by_cases ht : t < 0
  · rw [if_pos ht]
    have htR : ((t : ℚ) : ℝ) < 0 := by exact_mod_cast ht
    have hts : ((t : ℚ) : ℝ) * Real.sqrt ((v : ℚ) : ℝ) < 0 := mul_neg_of_neg_of_pos htR hs
    by_cases hd : 0 ≤ d
    · rw [if_pos hd]
      have hdR : (0 : ℝ) ≤ ((d : ℚ) : ℝ) := by exact_mod_cast hd
      simp only [true_iff]
      linarith
    · rw [if_neg hd]
      push_neg at hd
      have hdR : ((d : ℚ) : ℝ) < 0 := by exact_mod_cast hd
      rw [decide_eq_true_eq]
      constructor
      · intro hlt
        have hltR : ((d : ℚ) : ℝ) * ((d : ℚ) : ℝ) < ((t : ℚ) : ℝ) * ((t : ℚ) : ℝ) * ((v : ℚ) : ℝ) := by
          exact_mod_cast hlt
        have hnn : 0 ≤ -(((t : ℚ) : ℝ) * Real.sqrt ((v : ℚ) : ℝ)) := by linarith
        have h2 : (-((d : ℚ) : ℝ)) ^ 2 < (-(((t : ℚ) : ℝ) * Real.sqrt ((v : ℚ) : ℝ))) ^ 2 := by
          nlinarith [hmp]
        have h3 : -((d : ℚ) : ℝ) < -(((t : ℚ) : ℝ) * Real.sqrt ((v : ℚ) : ℝ)) :=
          lt_of_pow_lt_pow_left₀ 2 hnn h2
        linarith
      · intro hlt
        have hnn : 0 ≤ -((d : ℚ) : ℝ) := by linarith
        have h3 : -((d : ℚ) : ℝ) < -(((t : ℚ) : ℝ) * Real.sqrt ((v : ℚ) : ℝ)) := by linarith
        have h2 : (-((d : ℚ) : ℝ)) ^ 2 < (-(((t : ℚ) : ℝ) * Real.sqrt ((v : ℚ) : ℝ))) ^ 2 :=
          pow_lt_pow_left₀ h3 hnn (by norm_num)
        have h4 : ((d : ℚ) : ℝ) * ((d : ℚ) : ℝ) < ((t : ℚ) : ℝ) * ((t : ℚ) : ℝ) * ((v : ℚ) : ℝ) := by
          nlinarith [hmp]
        exact_mod_cast h4
  · rw [if_neg ht]
    push_neg at ht
    rw [decide_eq_true_eq]
    have htsnn : 0 ≤ ((t : ℚ) : ℝ) * Real.sqrt ((v : ℚ) : ℝ) :=
      mul_nonneg (by exact_mod_cast ht) (le_of_lt hs)
    constructor
    · rintro ⟨hd, hlt⟩
      have hdR : (0 : ℝ) < ((d : ℚ) : ℝ) := by exact_mod_cast hd
      have hltR : ((t : ℚ) : ℝ) * ((t : ℚ) : ℝ) * ((v : ℚ) : ℝ) < ((d : ℚ) : ℝ) * ((d : ℚ) : ℝ) := by
        exact_mod_cast hlt
      have h2 : (((t : ℚ) : ℝ) * Real.sqrt ((v : ℚ) : ℝ)) ^ 2 < ((d : ℚ) : ℝ) ^ 2 := by
        nlinarith [hmp]
      exact lt_of_pow_lt_pow_left₀ 2 (le_of_lt hdR) h2
    · intro hlt
      have hdR : (0 : ℝ) < ((d : ℚ) : ℝ) := lt_of_le_of_lt htsnn hlt
      refine ⟨by exact_mod_cast hdR, ?_⟩
      have h2 : (((t : ℚ) : ℝ) * Real.sqrt ((v : ℚ) : ℝ)) ^ 2 < ((d : ℚ) : ℝ) ^ 2 :=
        pow_lt_pow_left₀ hlt htsnn (by norm_num)
      have h4 : ((t : ℚ) : ℝ) * ((t : ℚ) : ℝ) * ((v : ℚ) : ℝ) < ((d : ℚ) : ℝ) * ((d : ℚ) : ℝ) := by
        nlinarith [hmp]
      exact_mod_cast h4

/-- Sum of a list of nonnegative rationals is zero only if every entry is. -/
theorem list_sum_nonneg_all_zero (l : List ℚ) (hnn : ∀ x ∈ l, 0 ≤ x)
    (hz : l.sum = 0) : ∀ x ∈ l, x = 0 := by
  induction l with
  | nil => intro x hx; simp at hx
  | cons a t ih =>
    have ha : 0 ≤ a := hnn a (by simp)
    have hts : 0 ≤ t.sum := List.sum_nonneg fun x hx => hnn x (by simp [hx])
    simp only [List.sum_cons] at hz
    intro x hx
    rcases List.mem_cons.mp hx with rfl | hx'
    · linarith
    · exact ih (fun y hy => hnn y (by simp [hy])) (by linarith) x hx'

/-- Mean of a constant non-empty list. -/
theorem meanQ_const (l : List ℚ) (c : ℚ) (hne : l ≠ []) (h : ∀ x ∈ l, x = c) :
    meanQ l = c := by
  have hsum : l.sum = l.length • c := List.sum_eq_card_nsmul l c h
  have hlen : (l.length : ℚ) ≠ 0 := by
    have : l.length ≠ 0 := fun h0 => hne (List.length_eq_zero.mp h0)
    exact_mod_cast this
  rw [meanQ, hsum, nsmul_eq_mul, mul_comm, mul_div_assoc, div_self hlen, mul_one]

/-- Sample variance is nonnegative on at least two observations. -/
theorem sampleVar_nonneg (l : List ℚ) (h2 : 2 ≤ l.length) : 0 ≤ sampleVar l := by
  unfold sampleVar
  apply div_nonneg
  · apply List.sum_nonneg
    intro x hx
    obtain ⟨y, _, rfl⟩ := List.mem_map.mp hx
    positivity
  · have : (2 : ℚ) ≤ (l.length : ℚ) := by exact_mod_cast h2
    linarith

/-- Zero sample variance (with at least two observations) forces every entry
to equal the mean. -/
theorem sampleVar_zero_all_eq_mean (l : List ℚ) (h2 : 2 ≤ l.length)
    (hz : sampleVar l = 0) : ∀ x ∈ l, x = meanQ l := by
  unfold sampleVar at hz
  have hden : ((l.length : ℚ) - 1) ≠ 0 := by
    have : (2 : ℚ) ≤ (l.length : ℚ) := by exact_mod_cast h2
    intro h0
    rw [sub_eq_zero] at h0
    rw [h0] at this
    norm_num at this
  have hsum : (l.map (fun v => (v - meanQ l) ^ 2)).sum = 0 := by
    by_contra hne
    exact hne (by
      have := div_eq_zero_iff.mp hz
      rcases this with h | h
      · exact h
      · exact absurd h hden)
  have hall := list_sum_nonneg_all_zero _ (by
    intro x hx
    obtain ⟨y, _, rfl⟩ := List.mem_map.mp hx
    positivity) hsum
  intro x hx
  have hx2 : (x - meanQ l) ^ 2 = 0 := hall _ (List.mem_map_of_mem _ hx)
  have : x - meanQ l = 0 := by
    nlinarith [sq_nonneg (x - meanQ l)]
  linarith

/-! ## C2 — z-score detector -/

/-- C2: the z-score detector flags exactly the per-day rows with
`|z| > threshold` (where `z = (value − mean)/sample std` over the per-day
series), classifies by the code's `high`/`low`/`normal` chain, and flags
nothing when the z-score is undefined: a single-point series (`std = NaN`),
zero variance, or an all-equal series. -/
theorem zscore_flags_exactly (df : List DRow) (t : ℚ) :
    (∀ r ∈ calculate_zscore_anomalies df t,
      (sampleVarQ? (dailyVals df) = none →
        r.is_anomaly = false ∧ r.anomaly_type = ("normal")) ∧
      (sampleVarQ? (dailyVals df) = some 0 →
        r.is_anomaly = false ∧ r.anomaly_type = ("normal")) ∧
      (∀ v : ℚ, sampleVarQ? (dailyVals df) = some v → v ≠ 0 →
        ((r.is_anomaly = true ↔ (t : ℝ) <
            |((r.value : ℝ) - ((meanQ (dailyVals df) : ℚ) : ℝ)) /
              Real.sqrt ((v : ℚ) : ℝ)|) ∧
          (r.anomaly_type = ("high") ↔ (t : ℝ) <
            ((r.value : ℝ) - ((meanQ (dailyVals df) : ℚ) : ℝ)) /
              Real.sqrt ((v : ℚ) : ℝ)) ∧
          (r.anomaly_type = ("low") ↔
            (¬ (t : ℝ) < ((r.value : ℝ) - ((meanQ (dailyVals df) : ℚ) : ℝ)) /
                Real.sqrt ((v : ℚ) : ℝ)) ∧
              ((r.value : ℝ) - ((meanQ (dailyVals df) : ℚ) : ℝ)) /
                Real.sqrt ((v : ℚ) : ℝ) < -(t : ℝ)) ∧
          (r.anomaly_type = ("normal") ↔
            (¬ (t : ℝ) < ((r.value : ℝ) - ((meanQ (dailyVals df) : ℚ) : ℝ)) /
                Real.sqrt ((v : ℚ) : ℝ)) ∧
              ¬ ((r.value : ℝ) - ((meanQ (dailyVals df) : ℚ) : ℝ)) /
                Real.sqrt ((v : ℚ) : ℝ) < -(t : ℝ))))) ∧
    ((∃ c : ℚ, ∀ x ∈ dailyVals df, x = c) →
      ∀ r ∈ calculate_zscore_anomalies df t,
        r.is_anomaly = false ∧ r.anomaly_type = ("normal")) := by
  constructor
  · intro r hr
    simp only [calculate_zscore_anomalies] at hr
    obtain ⟨p, hp, hpr⟩ := List.mem_map.mp hr
    subst hpr
    refine ⟨?_, ?_, ?_⟩
    · intro hv
      simp [hv]
    · intro hv
      simp [hv]
    · intro v hv hvne
      have h2 : 2 ≤ (dailyVals df).length := by
        by_contra hle
        push_neg at hle
        have hnone : sampleVarQ? (dailyVals df) = none := by
          unfold sampleVarQ?
          rw [if_pos (by omega)]
        rw [hnone] at hv
        cases hv
      have hvv : sampleVar (dailyVals df) = v := by
        unfold sampleVarQ? at hv
        rw [if_neg (by omega)] at hv
        exact Option.some.inj hv
      have hvpos : 0 < v :=
        lt_of_le_of_ne (hvv ▸ sampleVar_nonneg _ h2) (Ne.symm hvne)
      have hsp : 0 < Real.sqrt ((v : ℚ) : ℝ) :=
        Real.sqrt_pos.mpr (by exact_mod_cast hvpos)
      simp only [hv]
      rw [if_neg hvne]
      dsimp only
      set μ := meanQ (dailyVals df) with hmu
      set z := (((p.2 : ℤ) : ℝ) - ((μ : ℚ) : ℝ)) / Real.sqrt ((v : ℚ) : ℝ) with hzdef
      have hcastd : ((((p.2 : ℤ) : ℚ) - μ : ℚ) : ℝ) =
          ((p.2 : ℤ) : ℝ) - ((μ : ℚ) : ℝ) := by push_cast; ring
      have hcastn : (((-((((p.2 : ℤ) : ℚ)) - μ)) : ℚ) : ℝ) =
          -(((p.2 : ℤ) : ℝ) - ((μ : ℚ) : ℝ)) := by push_cast; ring
      have hA_iff : gtMulSqrt (((p.2 : ℤ) : ℚ) - μ) t v = true ↔ (t : ℝ) < z := by
        rw [gtMulSqrt_iff _ _ _ hvpos, hcastd]
        constructor
        · intro h
          rw [hzdef, lt_div_iff₀ hsp]
          linarith
        · intro h
          rw [hzdef, lt_div_iff₀ hsp] at h
          linarith
      have hB_iff : gtMulSqrt (-(((p.2 : ℤ) : ℚ) - μ)) t v = true ↔ z < -(t : ℝ) := by
        rw [gtMulSqrt_iff _ _ _ hvpos, hcastn]
        constructor
        · intro h
          rw [hzdef, div_lt_iff₀ hsp]
          linarith
        · intro h
          rw [hzdef, div_lt_iff₀ hsp] at h
          linarith
      by_cases hA : gtMulSqrt (((p.2 : ℤ) : ℚ) - μ) t v = true
      · have hz1 : (t : ℝ) < z := hA_iff.mp hA
        refine ⟨?_, ?_, ?_, ?_⟩
        · rw [Bool.or_eq_true]
          exact ⟨fun _ => lt_abs.mpr (Or.inl hz1), fun _ => Or.inl hA⟩
        · rw [if_pos hA]
          exact ⟨fun _ => hz1, fun _ => rfl⟩
        · rw [if_pos hA]
          exact ⟨fun h => absurd h (by decide), fun hcon => absurd hz1 hcon.1⟩
        · rw [if_pos hA]
          exact ⟨fun h => absurd h (by decide), fun hcon => absurd hz1 hcon.1⟩
      · have hnz1 : ¬ (t : ℝ) < z := fun h => hA (hA_iff.mpr h)
        by_cases hB : gtMulSqrt (-(((p.2 : ℤ) : ℚ) - μ)) t v = true
        · have hz2 : z < -(t : ℝ) := hB_iff.mp hB
          refine ⟨?_, ?_, ?_, ?_⟩
          · rw [Bool.or_eq_true]
            exact ⟨fun _ => lt_abs.mpr (Or.inr (by linarith)), fun _ => Or.inr hB⟩
          · rw [if_neg hA, if_pos hB]
            exact ⟨fun h => absurd h (by decide), fun h => absurd h hnz1⟩
          · rw [if_neg hA, if_pos hB]
            exact ⟨fun _ => ⟨hnz1, hz2⟩, fun _ => rfl⟩
          · rw [if_neg hA, if_pos hB]
            exact ⟨fun h => absurd h (by decide), fun hcon => absurd hz2 hcon.2⟩
        · have hnz2 : ¬ z < -(t : ℝ) := fun h => hB (hB_iff.mpr h)
          refine ⟨?_, ?_, ?_, ?_⟩
          · rw [Bool.or_eq_true]
            constructor
            · rintro (h | h)
              · exact absurd h hA
              · exact absurd h hB
            · intro h
              rcases lt_abs.mp h with h1 | h1
              · exact absurd h1 hnz1
              · exact absurd (show z < -(t : ℝ) by linarith) hnz2
          · rw [if_neg hA, if_neg hB]
            exact ⟨fun h => absurd h (by decide), fun h => absurd h hnz1⟩
          · rw [if_neg hA, if_neg hB]
            exact ⟨fun h => absurd h (by decide), fun hcon => absurd hcon.2 hnz2⟩
          · rw [if_neg hA, if_neg hB]
            exact ⟨fun _ => ⟨hnz1, hnz2⟩, fun _ => rfl⟩
  · rintro ⟨c, hc⟩ r hr
    simp only [calculate_zscore_anomalies] at hr
    obtain ⟨p, hp, hpr⟩ := List.mem_map.mp hr
    subst hpr
    by_cases hlen : (dailyVals df).length ≤ 1
    · have hv : sampleVarQ? (dailyVals df) = none := by
        unfold sampleVarQ?
        rw [if_pos hlen]
      simp [hv]
    · push_neg at hlen
      have hne2 : dailyVals df ≠ [] := by
        intro h0
        rw [h0] at hlen
        simp at hlen
      have hmean : meanQ (dailyVals df) = c := meanQ_const _ c hne2 hc
      have hvar : sampleVar (dailyVals df) = 0 := by
        unfold sampleVar
        have hterms : ∀ y ∈ (dailyVals df).map (fun x => (x - c) ^ 2), y = 0 := by
          intro y hy
          obtain ⟨x, hx, rfl⟩ := List.mem_map.mp hy
          rw [hc x hx]
          ring
        rw [hmean, List.sum_eq_zero hterms, zero_div]
      have hv : sampleVarQ? (dailyVals df) = some 0 := by
        unfold sampleVarQ?
        rw [if_neg (by omega), hvar]
      simp [hv]

/-- C2 witness: on the one-row table (single-point series) nothing is
flagged and the single day is `normal`. -/
theorem zscore_flags_exactly_witness :
    ((calculate_zscore_anomalies df0 ANOMALY_THRESHOLD).getD 0 default).is_anomaly
        = false ∧
      ((calculate_zscore_anomalies df0 ANOMALY_THRESHOLD).getD 0
          default).anomaly_type = ("normal") := by
  have hlen : 0 < (calculate_zscore_anomalies df0 ANOMALY_THRESHOLD).length := by
    decide
  have hmem : (calculate_zscore_anomalies df0 ANOMALY_THRESHOLD).getD 0 default ∈
      calculate_zscore_anomalies df0 ANOMALY_THRESHOLD := by
    rw [List.getD_eq_getElem _ _ hlen]
    exact List.getElem_mem hlen
  exact ((zscore_flags_exactly df0 ANOMALY_THRESHOLD).1 _ hmem).1 (by decide)

/-! ## C3 — rolling-window detector -/

/-- A defined centered window has full width and in-range bounds. -/
theorem windowSlice_length (vals : List ℚ) (w i : ℕ) (s : List ℚ)
    (h : windowSlice vals w i = some s) :
    s.length = w ∧ (w - 1) / 2 ≤ i ∧ i + w / 2 < vals.length := by
  unfold windowSlice at h
  by_cases hc : (w - 1) / 2 ≤ i ∧ i + w / 2 < vals.length
  · rw [if_pos hc] at h
    obtain ⟨hc1, hc2⟩ := hc
    refine ⟨?_, hc1, hc2⟩
    rw [← Option.some.inj h, List.length_take, List.length_drop]
    omega
  · rw [if_neg hc] at h
    cases h

/-- The day itself belongs to its own centered window. -/
theorem windowSlice_center (vals : List ℚ) (w i : ℕ) (s : List ℚ) (hw : 1 ≤ w)
    (h : windowSlice vals w i = some s) : vals.getD i 0 ∈ s := by
  obtain ⟨hlen, hc1, hc2⟩ := windowSlice_length vals w i s h
  unfold windowSlice at h
  rw [if_pos ⟨hc1, hc2⟩] at h
  have hs : s = (vals.drop (i - (w - 1) / 2)).take w := (Option.some.inj h).symm
  subst hs
  have hiv : i < vals.length := by omega
  have hjlt : i - (i - (w - 1) / 2) <
      ((vals.drop (i - (w - 1) / 2)).take w).length := by
    rw [List.length_take, List.length_drop]
    omega
  have he : ((vals.drop (i - (w - 1) / 2)).take w).getD (i - (i - (w - 1) / 2)) 0 =
      vals.getD i 0 := by
    rw [List.getD_eq_getElem _ 0 hjlt, List.getD_eq_getElem vals 0 hiv]
    rw [List.getElem_take, List.getElem_drop]
    have hidx : i - (w - 1) / 2 + (i - (i - (w - 1) / 2)) = i := by omega
    simp only [hidx]
  rw [← he, List.getD_eq_getElem _ 0 hjlt]
  exact List.getElem_mem hjlt

/-- C3: in `calculate_rolling_anomalies` (any window width ≥ 1 and positive
threshold multiplier, covering the defaults), a day with undefined rolling
stats — in particular the edge days lacking a full centered window — is
non-anomalous with severity 0; a day with zero rolling variance has zero
deviation and severity 0 (the `0/0` NaN filled by `fillna(0)`, never an
infinity); and a day with positive rolling variance has severity exactly
`deviation ÷ threshold_value` (stated via its square and recovered in `ℝ` by
the square root) and is flagged iff `deviation > threshold_value`. -/
theorem rolling_severity_spec (df : List DRow) (window : ℕ) (t : ℚ)
    (hw : 1 ≤ window) (ht : 0 < t) :
    ∀ r ∈ calculate_rolling_anomalies df window t,
      (r.rolling_var = none →
        r.is_rolling_anomaly = false ∧ r.anomaly_severity_sq = FloatQ.q 0) ∧
      (∀ vr : ℚ, r.rolling_var = some vr →
        0 ≤ vr ∧
        (vr = 0 → r.deviation = some 0 ∧ r.is_rolling_anomaly = false ∧
          r.anomaly_severity_sq = FloatQ.q 0) ∧
        (0 < vr → ∀ d : ℚ, r.deviation = some d →
          0 ≤ d ∧
          r.anomaly_severity_sq = FloatQ.q ((d * d) / (t * t * vr)) ∧
          Real.sqrt (((d * d) / (t * t * vr) : ℚ) : ℝ) =
            ((d : ℚ) : ℝ) / (((t : ℚ) : ℝ) * Real.sqrt ((vr : ℚ) : ℝ)) ∧
          (r.is_rolling_anomaly = true ↔
            ((t : ℚ) : ℝ) * Real.sqrt ((vr : ℚ) : ℝ) < ((d : ℚ) : ℝ)))) := by
  intro r hr
  simp only [calculate_rolling_anomalies] at hr
  obtain ⟨i, hi, hpr⟩ := List.mem_map.mp hr
  have hi' : i < (List.insertionSort (fun a b : ℤ × ℤ => a.1 ≤ b.1)
      (dailyTotals df)).length := List.mem_range.mp hi
  subst hpr
  dsimp only
  set daily := List.insertionSort (fun a b : ℤ × ℤ => a.1 ≤ b.1) (dailyTotals df)
    with hdaily
  set vals := daily.map (fun p => ((p.2 : ℤ) : ℚ)) with hvals
  cases hws : windowSlice vals window i with
  | none =>
    refine ⟨fun _ => ⟨rfl, rfl⟩, ?_⟩
    intro vr hvr
    exact absurd hvr (by simp)
  | some s =>
    simp only [Option.some_bind, Option.map_some']
    constructor
    · intro hrv
      rw [hrv]
      exact ⟨rfl, rfl⟩
    · intro vr hvr
      have hs2 : 2 ≤ s.length := by
        by_contra hle
        push_neg at hle
        have hnone : sampleVarQ? s = none := by
          unfold sampleVarQ?
          rw [if_pos (by omega)]
        rw [hnone] at hvr
        cases hvr
      have hvreq : sampleVar s = vr := by
        unfold sampleVarQ? at hvr
        rw [if_neg (by omega)] at hvr
        exact Option.some.inj hvr
      have hvrnn : 0 ≤ vr := hvreq ▸ sampleVar_nonneg s hs2
      have hiv : i < vals.length := by
        rw [hvals, List.length_map]
        exact hi'
      have hvv : ((daily.getD i (0, 0)).2 : ℚ) = vals.getD i 0 := by
        rw [List.getD_eq_getElem daily (0, 0) hi', List.getD_eq_getElem vals 0 hiv]
        simp only [hvals, List.getElem_map]
      refine ⟨hvrnn, ?_, ?_⟩
      · intro hvr0
        have hallmean := sampleVar_zero_all_eq_mean s hs2 (by rw [hvreq, hvr0])
        have hvmem : vals.getD i 0 ∈ s := windowSlice_center vals window i s hw hws
        have hveq : vals.getD i 0 = meanQ s := hallmean _ hvmem
        have hdev0 : |((daily.getD i (0, 0)).2 : ℚ) - meanQ s| = 0 := by
          rw [hvv, hveq]
          simp
        refine ⟨?_, ?_, ?_⟩
        · rw [hdev0]
        · rw [hvr, hdev0]
          subst hvr0
          show gtMulSqrt 0 t 0 = false
          unfold gtMulSqrt
          rw [if_neg (not_lt.mpr (le_of_lt ht))]
          simp
        · rw [hvr, hdev0]
          subst hvr0
          show FloatQ.fillna0 (fdivQ ((0 : ℚ) * 0) (t * t * 0)) = FloatQ.q 0
          norm_num [fdivQ, FloatQ.fillna0]
      · intro hvrpos d hd
        rw [hvr]
        have hdval : |((daily.getD i (0, 0)).2 : ℚ) - meanQ s| = d :=
          Option.some.inj hd
        have hdnn : 0 ≤ d := hdval ▸ abs_nonneg _
        have httvr : t * t * vr ≠ 0 := ne_of_gt (by positivity)
        refine ⟨hdnn, ?_, ?_, ?_⟩
        · rw [hdval]
          show FloatQ.fillna0 (fdivQ (d * d) (t * t * vr)) =
            FloatQ.q ((d * d) / (t * t * vr))
          unfold fdivQ
          rw [if_neg httvr]
          rfl
        · have hvrR : (0 : ℝ) < ((vr : ℚ) : ℝ) := by exact_mod_cast hvrpos
          have hcast : (((d * d) / (t * t * vr) : ℚ) : ℝ) =
              (((d : ℚ) : ℝ) / (((t : ℚ) : ℝ) * Real.sqrt ((vr : ℚ) : ℝ))) ^ 2 := by
            push_cast
            rw [div_pow, mul_pow, Real.sq_sqrt (le_of_lt hvrR)]
            ring_nf
          rw [hcast, Real.sqrt_sq (by positivity)]
        · rw [hdval]
          show gtMulSqrt d t vr = true ↔
            ((t : ℚ) : ℝ) * Real.sqrt ((vr : ℚ) : ℝ) < ((d : ℚ) : ℝ)
          exact gtMulSqrt_iff d t vr hvrpos

/-- C3 witness: on the one-row table with the default window the single day
lacks a full window, so it is unflagged with severity 0. -/
theorem rolling_severity_spec_witness :
    ((calculate_rolling_anomalies df0 ROLLING_WINDOW ANOMALY_THRESHOLD).getD 0
        default).is_rolling_anomaly = false ∧
      ((calculate_rolling_anomalies df0 ROLLING_WINDOW ANOMALY_THRESHOLD).getD 0
        default).anomaly_severity_sq = FloatQ.q 0 := by
  have hlen : 0 <
      (calculate_rolling_anomalies df0 ROLLING_WINDOW ANOMALY_THRESHOLD).length := by
    decide
  have hmem : (calculate_rolling_anomalies df0 ROLLING_WINDOW
        ANOMALY_THRESHOLD).getD 0 default ∈
      calculate_rolling_anomalies df0 ROLLING_WINDOW ANOMALY_THRESHOLD := by
    rw [List.getD_eq_getElem _ _ hlen]
    exact List.getElem_mem hlen
  exact (rolling_severity_spec df0 ROLLING_WINDOW ANOMALY_THRESHOLD (by decide)
    (by norm_num [ANOMALY_THRESHOLD]) _ hmem).1 (by decide)

/-- C9 witness: the validator accepts the exact required column set. -/
theorem validate_columns_spec_witness :
    validate_columns [("date"), ("state"), ("district"), ("pincode"),
      ("age_0_5"), ("age_5_17"), ("age_18_greater")] = Except.ok true :=
  (validate_columns_spec [("date"), ("state"), ("district"), ("pincode"),
    ("age_0_5"), ("age_5_17"), ("age_18_greater")] []).2.1.mp (by decide)
